import Mathlib

/-!
# goWebCrawler: a shallow embedding of `crawler.go` and `fetcher.go`

Go `map[string]V` values are kept as entry lists, Go `int` is `Int`, a Go
`error` is its message, and a run-time panic is an `Abort`.  The goroutines started
by `Crawl` are interleaved by an explicit scheduler: every access to a shared
map runs under that map's mutex in the program, so one such access is one step.
-/

namespace GoWebCrawler

/-! ## Maps -/

/-- Go `map[string]V`, kept as its list of entries. -/
abbrev GoMap (V : Type) := List (String × V)

/-- The lookup `v, ok := m[key]`. -/
def mapGet {V : Type} : GoMap V → String → Option V
  | [], _ => none
  | (k, v) :: rest, key => if k = key then some v else mapGet rest key

/-- The assignment `m[key] = val`. -/
def mapSet {V : Type} : GoMap V → String → V → GoMap V
  | [], key, val => [(key, val)]
  | (k, v) :: rest, key, val =>
    if k = key then (k, val) :: rest else (k, v) :: mapSet rest key val

def mapKeys {V : Type} (m : GoMap V) : List String := m.map Prod.fst

/-! ## crawler.go: states, metrics, site map -/

inductive urlState where
  | DONE
  | LOADING
  | ERROR
  | NA
  deriving DecidableEq, Repr

/-- The body of the `range` loop of `metrics`, for one entry of the map. -/
def metricsStep (acc : Int × Int × Int) (state : urlState) : Int × Int × Int :=
  let loaded := if state = urlState.DONE then acc.1 + 1 else acc.1
  let inprogress := if state = urlState.LOADING then acc.2.1 + 1 else acc.2.1
  let er := if state = urlState.ERROR then acc.2.2 + 1 else acc.2.2
  (loaded, inprogress, er)

/-- The method `urlStateMap.metrics`; the entries are visited in the order of the list. -/
def metrics (stateMap : GoMap urlState) : Int × Int × Int :=
  stateMap.foldl (fun acc entry => metricsStep acc entry.2) (0, 0, 0)

/-- How a Go call can stop without returning: a run-time panic, or (in a
fuel-bounded definition of this file only) the fuel running out. -/
inductive Abort where
  | panic (what : String)
  | outOfFuel
  deriving DecidableEq, Repr

/-- Go `strings.Repeat`: it panics on a negative count. -/
def Repeat (s : String) (count : Int) : Except Abort String :=
  if count < 0 then .error (.panic "strings: negative Repeat count")
  else .ok (String.join (List.replicate count.toNat s))

/-- The body of `urlMap.PrintSiteMap`, with the recursion depth as a fuel argument;
`res` is the accumulator of the `range` loop. -/
def PrintSiteMapFuel (cache : GoMap (List String)) (maxDepth : Int) :
    Nat → String → Int → Except Abort String
  | fuel, url, space =>
    if space ≥ maxDepth then .ok url
    else
      match fuel with
      | 0 => .error .outOfFuel
      | fuel + 1 =>
        match mapGet cache url with
        | some newUrls => do
          let res ← newUrls.foldlM (fun res curUrl => do
            let tabs ← Repeat "\t" space
            let sub ← PrintSiteMapFuel cache maxDepth fuel curUrl (space + 1)
            pure (res ++ ("\n" ++ tabs ++ "|__" ++ sub))) ""
          pure (url ++ res)
        | none => .ok url

/-- The method `urlMap.PrintSiteMap`: `space` grows by one per call and the
recursion stops at `maxDepth`, so `maxDepth - space` nested calls are enough. -/
def PrintSiteMap (cache : GoMap (List String)) (url : String) (maxDepth space : Int) :
    Except Abort String :=
  PrintSiteMapFuel cache maxDepth (maxDepth - space).toNat url space

/-- The reference rendering of the site map below `u`, with `remaining` levels
still to expand and `level` tab characters before each child of `u`. -/
def renderTree (cache : GoMap (List String)) : Nat → String → Nat → String
  | 0, u, _ => u
  | remaining + 1, u, level =>
    u ++ String.join (((mapGet cache u).getD []).map (fun c =>
      "\n" ++ String.mk (List.replicate level '\t') ++ "|__"
        ++ renderTree cache remaining c (level + 1)))

/-- The store `fakeCollectedUrls` of `crawler_test.go`. -/
def fakeCollectedUrls : GoMap (List String) :=
  [("https://golang.org/",
      ["https://golang.org/pkg/", "https://golang.org/fmt/", "https://golang.org/os/"]),
   ("https://golang.org/pkg/", ["https://golang.org/fmt/", "https://golang.org/os/"]),
   ("https://golang.org/fmt/", ["https://golang.org/pkg/", "https://golang.org/os/"]),
   ("https://golang.org/os/", ["https://golang.org/pkg/", "https://golang.org/fmt/"])]

/-- The state map of `TestMetrics`. -/
def fakeUrlStateMap : GoMap urlState :=
  [("u1", .DONE), ("u2", .DONE), ("u3", .DONE), ("u4", .LOADING), ("u5", .ERROR),
   ("u6", .LOADING), ("u7", .LOADING), ("u8", .ERROR), ("u9", .DONE)]

/-! ## crawler.go: `Crawl` and its goroutines -/

/-- Where a `Crawl` call stands: each constructor is the next access to a shared
map (or the call of `Fetch`, or the next `go` statement) it will perform. -/
inductive Pc where
  | entry
  | setLoading
  | callFetch
  | setError
  | setDone
  | addUrls
  | spawn
  | returned
  deriving DecidableEq, Repr

/-- One call `Crawl(baseUrl, depth, fetcher)` running as a goroutine; `urls` is
the local slice returned by `Fetch`, then what is left of it in the `range` loop. -/
structure Goroutine where
  baseUrl : String
  depth : Int
  pc : Pc
  urls : List String
  deriving DecidableEq, Repr

/-- The shared memory of a run: `urlStateCache.stateMap`, `visitedUrls.cache`,
the counter of `wg`, every goroutine started so far, and (as a record of the
run) the addresses `Fetch` was called with, in call order. -/
structure World where
  stateMap : GoMap urlState
  cache : GoMap (List String)
  wg : Int
  goroutines : List Goroutine
  fetched : List String
  deriving DecidableEq, Repr

/-- The fetcher as `Crawl` sees it: `Fetch` over a fixed web. -/
abbrev Fetcher := String → Except String (List String)

/-- The state after `main` has run `wg.Add(1)` and entered `Crawl(baseUrl, depth, fetcher)`. -/
def Crawl.init (baseUrl : String) (depth : Int) : World :=
  { stateMap := [], cache := [], wg := 1,
    goroutines := [{ baseUrl := baseUrl, depth := depth, pc := .entry, urls := [] }],
    fetched := [] }

/-- Goroutine `i` becomes `g`. -/
def World.resume (w : World) (i : Nat) (g : Goroutine) : World :=
  { w with goroutines := w.goroutines.set i g }

/-- Goroutine `i` returns: the deferred `wg.Done()` runs. -/
def World.finish (w : World) (i : Nat) (g : Goroutine) : World :=
  { w with goroutines := w.goroutines.set i { g with pc := .returned }, wg := w.wg - 1 }

/-- One step of goroutine `i` of `Crawl`; `none` when there is no such goroutine
or it has returned. -/
def Crawl.step (fetcher : Fetcher) (w : World) (i : Nat) : Option World :=
  match w.goroutines[i]? with
  | none => none
  | some g =>
    match g.pc with
    | .entry =>
      if g.depth = 0 then some (w.finish i g)
      else
        match mapGet w.stateMap g.baseUrl with
        | some _ => some (w.finish i g)
        | none => some (w.resume i { g with pc := .setLoading })
    | .setLoading =>
      some { w.resume i { g with pc := .callFetch } with
        stateMap := mapSet w.stateMap g.baseUrl .LOADING }
    | .callFetch =>
      match fetcher g.baseUrl with
      | .error _ =>
        some { w.resume i { g with pc := .setError } with fetched := w.fetched ++ [g.baseUrl] }
      | .ok urls =>
        some { w.resume i { g with pc := .setDone, urls := urls } with
          fetched := w.fetched ++ [g.baseUrl] }
    | .setError =>
      some { w.finish i g with stateMap := mapSet w.stateMap g.baseUrl .ERROR }
    | .setDone =>
      some { w.resume i { g with pc := .addUrls } with
        stateMap := mapSet w.stateMap g.baseUrl .DONE }
    | .addUrls =>
      some { w.resume i { g with pc := .spawn } with cache := mapSet w.cache g.baseUrl g.urls }
    | .spawn =>
      match g.urls with
      | [] => some (w.finish i g)
      | url :: rest =>
        some { w with
          wg := w.wg + 1,
          goroutines := w.goroutines.set i { g with urls := rest } ++
            [{ baseUrl := url, depth := g.depth - 1, pc := .entry, urls := [] }] }
    | .returned => none

/-- A run under a schedule: the list names, step by step, the goroutine that moves. -/
def Crawl.run (fetcher : Fetcher) : List Nat → World → Option World
  | [], w => some w
  | i :: schedule, w =>
    match Crawl.step fetcher w i with
    | none => none
    | some w1 => Crawl.run fetcher schedule w1

/-- Every goroutine has returned: `wg.Wait()` in `main` is over. -/
def World.finished (w : World) : Bool :=
  w.goroutines.all (fun g => g.pc = .returned)

/-- The address `a` is at the end of a path of `n` links from `seed`, a link
going from a page that `Fetch` serves to each of the children it returns. -/
inductive ReachIn (fetcher : Fetcher) (seed : String) : Nat → String → Prop where
  | seed : ReachIn fetcher seed 0 seed
  | link {n : Nat} {a b : String} {children : List String} :
      ReachIn fetcher seed n a → fetcher a = .ok children → b ∈ children →
      ReachIn fetcher seed (n + 1) b

/-- What holds of every goroutine of a run started by `Crawl(seed, d)`: its
address is at the end of a path from the seed whose length and the goroutine's
depth add up to `d`, the depth is not negative, it is positive once the call
is past its first test, and the local `urls` come from what `Fetch` returned. -/
def Goroutine.ok (fetcher : Fetcher) (seed : String) (d : Int) (g : Goroutine) : Prop :=
  (∃ n : Nat, ReachIn fetcher seed n g.baseUrl ∧ (n : Int) + g.depth = d) ∧
  0 ≤ g.depth ∧
  (g.pc ≠ .entry → g.pc ≠ .returned → 0 < g.depth) ∧
  (g.pc = .setDone ∨ g.pc = .addUrls ∨ g.pc = .spawn →
    ∃ children, fetcher g.baseUrl = .ok children ∧ ∀ u ∈ g.urls, u ∈ children)

/-- The invariant of a run started by `Crawl(seed, d)`: every goroutine is as
above and every address of the state map is less than `d` links from the seed. -/
def World.ok (fetcher : Fetcher) (seed : String) (d : Int) (w : World) : Prop :=
  (∀ g ∈ w.goroutines, g.ok fetcher seed d) ∧
  (∀ a ∈ mapKeys w.stateMap, ∃ n : Nat, ReachIn fetcher seed n a ∧ (n : Int) < d)

/-- The link graph `fetcher` of `crawler_test.go`. -/
def fakeFetcher : Fetcher := fun url =>
  if url = "u0" then .ok ["u1", "u2", "u3"]
  else if url = "u1" then .ok ["u2", "u3"]
  else if url = "u2" then .ok ["u1", "u3"]
  else if url = "u3" then .ok ["u1", "u2"]
  else .error ("not found: " ++ url)

/-- A schedule for `Crawl("u0", 2)` on `fakeFetcher` in which each call runs to
its end before the next one starts. -/
def oneByOne : List Nat :=
  [0, 0, 0, 0, 0, 0, 0, 0, 0, 1, 1, 1, 1, 1, 1, 1, 1, 2, 2, 2, 2, 2, 2, 2, 2,
   3, 3, 3, 3, 3, 3, 3, 3, 4, 5, 6, 7, 8, 9]

/-- The state in which the run of `oneByOne` ends. -/
def crawledTwoDeep : World :=
  { stateMap := [("u0", .DONE), ("u1", .DONE), ("u2", .DONE), ("u3", .DONE)],
    cache := [("u0", ["u1", "u2", "u3"]), ("u1", ["u2", "u3"]), ("u2", ["u1", "u3"]),
      ("u3", ["u1", "u2"])],
    wg := 0,
    goroutines :=
      [{ baseUrl := "u0", depth := 2, pc := .returned, urls := [] },
       { baseUrl := "u1", depth := 1, pc := .returned, urls := [] },
       { baseUrl := "u2", depth := 1, pc := .returned, urls := [] },
       { baseUrl := "u3", depth := 1, pc := .returned, urls := [] },
       { baseUrl := "u2", depth := 0, pc := .returned, urls := [] },
       { baseUrl := "u3", depth := 0, pc := .returned, urls := [] },
       { baseUrl := "u1", depth := 0, pc := .returned, urls := [] },
       { baseUrl := "u3", depth := 0, pc := .returned, urls := [] },
       { baseUrl := "u1", depth := 0, pc := .returned, urls := [] },
       { baseUrl := "u2", depth := 0, pc := .returned, urls := [] }],
    fetched := ["u0", "u1", "u2", "u3"] }

/-! ## fetcher.go -/

structure UrlFetcher where
  maxRetries : Int
  baseUrl : String
  deriving DecidableEq, Repr

/-- The fields of Go's `url.URL` that matter here. -/
structure URL where
  Scheme : String
  Opaque : String
  Host : String
  Path : String
  Fragment : String
  deriving DecidableEq, Repr

/-- The three functions of Go's `net/url` that `RefactorUrl` calls:
`url.Parse`, `(*URL).ResolveReference` (base first) and `(*URL).String`. -/
structure UrlLib where
  Parse : String → Except String URL
  ResolveReference : URL → URL → URL
  URLString : URL → String

/-- Go `strings.HasPrefix`. -/
def HasPrefix (s pre : String) : Bool := pre.data.isPrefixOf s.data

/-- Go `strings.HasSuffix`. -/
def HasSuffix (s suffix : String) : Bool := suffix.data.isSuffixOf s.data

/-- Go `strings.TrimSuffix`: one copy of `suffix` is removed when `s` ends with it. -/
def TrimSuffix (s suffix : String) : String :=
  if HasSuffix s suffix then String.mk (s.data.take (s.data.length - suffix.data.length))
  else s

/-- The method `UrlFetcher.RefactorUrl`.  The outer result is an abort, the inner
one the pair `(string, error)`.  The error of parsing `fetcher.baseUrl` is
dropped by the code and `base` is then `nil`, which the next lines dereference. -/
def RefactorUrl (lib : UrlLib) (fetcher : UrlFetcher) (link baseUrl : String) :
    Except Abort (Except String String) :=
  if link.utf8ByteSize = 0 ∨ link = baseUrl ∨ link = "/" ∨ HasPrefix link "#" = true then
    .ok (.error ("invalid url type : " ++ link))
  else
    match lib.Parse link with
    | .error err => .ok (.error err)
    | .ok parsedURL =>
      match lib.Parse fetcher.baseUrl with
      | .error _ => .error (.panic "invalid memory address or nil pointer dereference")
      | .ok base =>
        let parsedLink := lib.ResolveReference base parsedURL
        if base.Host ≠ parsedLink.Host then
          .ok (.error ("external urls are not crawled : " ++ link))
        else
          let trimmedURL := TrimSuffix (lib.URLString parsedLink) "/"
          .ok (.ok trimmedURL)

/-- The token kinds of `golang.org/x/net/html`, `ErrorToken` apart: the end of a
token list stands for the `ErrorToken` of `io.EOF`. -/
inductive TokenType where
  | TextToken
  | StartTagToken
  | EndTagToken
  | SelfClosingTagToken
  | CommentToken
  | DoctypeToken
  deriving DecidableEq, Repr

structure Attribute where
  Key : String
  Val : String
  deriving DecidableEq, Repr

/-- An `html.Token`; `DataAtom` holds the text of `token.DataAtom.String()`. -/
structure Token where
  Typ : TokenType
  DataAtom : String
  Attr : List Attribute
  deriving DecidableEq, Repr

/-- The `range` loop of `GetUrlFromHrefAttr` over the attributes. -/
def hrefOfAttrs : List Attribute → String × Bool
  | [] => ("", false)
  | attr :: rest => if attr.Key = "href" then (attr.Val, true) else hrefOfAttrs rest

/-- The method `UrlFetcher.GetUrlFromHrefAttr`. -/
def GetUrlFromHrefAttr (token : Token) : String × Bool :=
  if token.DataAtom = "a" then hrefOfAttrs token.Attr else ("", false)

def isUrlVisited (url : String) (visUrlMap : GoMap Bool) : Bool :=
  match mapGet visUrlMap url with
  | some _ => true
  | none => false

/-- The `for` loop of `htmlParser` over the tokens that `page.Next()` yields. -/
def htmlParserLoop (lib : UrlLib) (fetcher : UrlFetcher) (baseUrl : String) :
    List Token → List String → GoMap Bool → Except Abort (Except String (List String))
  | [], urlCollection, _ => .ok (.ok urlCollection)
  | token :: page, urlCollection, visUrlMap =>
    match token.Typ with
    | .StartTagToken =>
      match GetUrlFromHrefAttr token with
      | (url, true) =>
        match RefactorUrl lib fetcher url baseUrl with
        | .error abort => .error abort
        | .ok (.ok url) =>
          if isUrlVisited url visUrlMap = false then
            htmlParserLoop lib fetcher baseUrl page (urlCollection ++ [url])
              (mapSet visUrlMap url true)
          else htmlParserLoop lib fetcher baseUrl page urlCollection visUrlMap
        | .ok (.error _) => htmlParserLoop lib fetcher baseUrl page urlCollection visUrlMap
      | (_, false) => htmlParserLoop lib fetcher baseUrl page urlCollection visUrlMap
    | _ => htmlParserLoop lib fetcher baseUrl page urlCollection visUrlMap

/-- The method `UrlFetcher.htmlParser`, the body given as its token sequence. -/
def htmlParser (lib : UrlLib) (fetcher : UrlFetcher) (baseUrl : String) (body : List Token) :
    Except Abort (Except String (List String)) :=
  htmlParserLoop lib fetcher baseUrl body [] []

/-- The interface `HttpClient` over a transport with state `σ`: `Get` returns the
response body (as tokens) or an error, and the next state of the transport. -/
structure HttpClient (σ : Type) where
  Get : σ → String → Except String (List Token) × σ

/-- The `for retries >= 0` loop of `Fetch`, from the values of `retries`,
`response` and `err` before an iteration to their values when the loop is left,
with the state in which it leaves the transport. -/
def Fetch.retryLoop {σ : Type} (client : HttpClient σ) (url : String) :
    Nat → Int → Option (List Token) → Option String → σ →
      Except Abort (Int × Option (List Token) × Option String) × σ
  | fuel, retries, response, err, s =>
    if retries ≥ 0 then
      match fuel with
      | 0 => (.error .outOfFuel, s)
      | fuel + 1 =>
        match client.Get s url with
        | (.ok body, s1) => (.ok (retries, some body, none), s1)
        | (.error e, s1) => Fetch.retryLoop client url fuel (retries - 1) none (some e) s1
    else (.ok (retries, response, err), s)

/-- The method `UrlFetcher.Fetch`, with `fuel` iterations allowed to its loop:
what the call does, and the state in which it leaves the transport.  A `nil`
response is dereferenced by `response.Body`. -/
def Fetch {σ : Type} (lib : UrlLib) (fetcher : UrlFetcher) (fuel : Nat) (url : String)
    (client : HttpClient σ) (s : σ) : Except Abort (Except String (List String)) × σ :=
  match Fetch.retryLoop client url fuel fetcher.maxRetries none none s with
  | (.error abort, s1) => (.error abort, s1)
  | (.ok (retries, response, err), s1) =>
    match err with
    | some e =>
      if retries < 0 then (.ok (.error e), s1)
      else
        match response with
        | none => (.error (.panic "invalid memory address or nil pointer dereference"), s1)
        | some body => (htmlParser lib fetcher url body, s1)
    | none =>
      match response with
      | none => (.error (.panic "invalid memory address or nil pointer dereference"), s1)
      | some body => (htmlParser lib fetcher url body, s1)

/-- The client that also keeps, in call order, the address of each `Get` and
what it returned. -/
def HttpClient.logged {σ : Type} (client : HttpClient σ) :
    HttpClient (σ × List (String × Except String (List Token))) where
  Get := fun s url =>
    ((client.Get s.1 url).1, ((client.Get s.1 url).2, s.2 ++ [(url, (client.Get s.1 url).1)]))

/-- The first occurrence of each address, in order. -/
def keepFirst : List String → List String
  | [] => []
  | a :: l => a :: (keepFirst l).filter (fun b => b ≠ a)

/-- The `href` values of the anchor start tags of a page, in page order. -/
def anchorHrefs (body : List Token) : List String :=
  body.filterMap (fun token =>
    if token.Typ = .StartTagToken ∧ token.DataAtom = "a" then
      match token.Attr.find? (fun attr => attr.Key = "href") with
      | some attr => some attr.Val
      | none => none
    else none)

/-- The addresses `RefactorUrl` accepts among `links`, in order. -/
def acceptedLinks (lib : UrlLib) (fetcher : UrlFetcher) (baseUrl : String)
    (links : List String) : List String :=
  links.filterMap (fun link =>
    match RefactorUrl lib fetcher link baseUrl with
    | .ok (.ok url) => some url
    | _ => none)

/-! ## A model of `net/url`

Go's `net/url` on URLs written `[scheme:][//host][path][#fragment]` in printable
ASCII without `?`, `%`, `@` and `[`: no query, no escaping, no user information.
-/

/-- Go `strings.Cut` at a one-character separator. -/
def cut (sep : Char) : List Char → List Char × List Char
  | [] => ([], [])
  | c :: cs => if c = sep then ([], cs) else ((cut sep cs).1.cons c, (cut sep cs).2)

/-- The loop of `getScheme` in `net/url`, `seen` being the characters read. -/
def getSchemeLoop (rawURL : List Char) : List Char → List Char →
    Except String (List Char × List Char)
  | _, [] => .ok ([], rawURL)
  | seen, c :: rest =>
    if c.isAlpha then getSchemeLoop rawURL (seen ++ [c]) rest
    else if c.isDigit ∨ c = '+' ∨ c = '-' ∨ c = '.' then
      if seen = [] then .ok ([], rawURL) else getSchemeLoop rawURL (seen ++ [c]) rest
    else if c = ':' then
      if seen = [] then .error "missing protocol scheme" else .ok (seen, rest)
    else .ok ([], rawURL)

/-- Go `url.Parse`. -/
def netParse (rawURL : String) : Except String URL :=
  let u := (cut '#' rawURL.data).1
  let frag := String.mk (cut '#' rawURL.data).2
  match getSchemeLoop u [] u with
  | .error err => .error err
  | .ok (scheme, rest) =>
    let scheme := String.mk (scheme.map Char.toLower)
    if rest.head? ≠ some '/' then
      if scheme ≠ "" then
        .ok { Scheme := scheme, Opaque := String.mk rest, Host := "", Path := "",
              Fragment := frag }
      else if ':' ∈ (cut '/' rest).1 then
        .error "first path segment in URL cannot contain colon"
      else .ok { Scheme := scheme, Opaque := "", Host := "", Path := String.mk rest,
                 Fragment := frag }
    else if (scheme ≠ "" ∨ ¬ ("///".data.isPrefixOf rest = true)) ∧
        "//".data.isPrefixOf rest = true then
      let authority := (rest.drop 2).takeWhile (fun c => c ≠ '/')
      let path := (rest.drop 2).dropWhile (fun c => c ≠ '/')
      .ok { Scheme := scheme, Opaque := "", Host := String.mk authority,
            Path := String.mk path, Fragment := frag }
    else .ok { Scheme := scheme, Opaque := "", Host := "", Path := String.mk rest,
               Fragment := frag }

/-- Go `strings.Split(s, "/")`. -/
def splitSlash : List Char → List (List Char)
  | [] => [[]]
  | c :: cs =>
    if c = '/' then [] :: splitSlash cs
    else
      match splitSlash cs with
      | seg :: segs => (c :: seg) :: segs
      | [] => [[c]]

/-- The removal of the `.` and `..` segments in `resolvePath`, `dst` being the
segments kept so far. -/
def removeDots : List (List Char) → List (List Char) → List (List Char)
  | [], dst => dst
  | elem :: src, dst =>
    if elem = ['.'] then removeDots src dst
    else if elem = ['.', '.'] then removeDots src dst.dropLast
    else removeDots src (dst ++ [elem])

/-- The function `resolvePath` of `net/url`. -/
def resolvePath (base ref : List Char) : List Char :=
  let full :=
    if ref = [] then base
    else if ref.head? ≠ some '/' then
      (base.reverse.dropWhile (fun c => c ≠ '/')).reverse ++ ref
    else ref
  if full = [] then []
  else
    let src := splitSlash full
    let dst := removeDots src []
    let dst := if src.getLast? = some ['.'] ∨ src.getLast? = some ['.', '.'] then dst ++ [[]]
      else dst
    let joined := List.intercalate ['/'] dst
    '/' :: (if joined.head? = some '/' then joined.drop 1 else joined)

/-- Go `(*URL).ResolveReference`, `u` being the base. -/
def netResolveReference (u ref : URL) : URL :=
  let url := if ref.Scheme = "" then { ref with Scheme := u.Scheme } else ref
  if ref.Scheme ≠ "" ∨ ref.Host ≠ "" then
    { url with Path := String.mk (resolvePath ref.Path.data []) }
  else if ref.Opaque ≠ "" then { url with Host := "", Path := "" }
  else
    let url := if ref.Path = "" ∧ ref.Fragment = "" then { url with Fragment := u.Fragment }
      else url
    if ref.Path = "" ∧ u.Opaque ≠ "" then
      { url with Opaque := u.Opaque, Host := "", Path := "" }
    else { url with Host := u.Host, Path := String.mk (resolvePath u.Path.data ref.Path.data) }

/-- Go `(*URL).String`. -/
def netURLString (u : URL) : String :=
  let buf := if u.Scheme ≠ "" then u.Scheme ++ ":" else ""
  let buf :=
    if u.Opaque ≠ "" then buf ++ u.Opaque
    else
      let buf :=
        if u.Scheme ≠ "" ∨ u.Host ≠ "" then
          (if u.Host ≠ "" ∨ u.Path ≠ "" then buf ++ "//" else buf) ++ u.Host
        else buf
      let buf :=
        if u.Path ≠ "" ∧ u.Path.data.head? ≠ some '/' ∧ u.Host ≠ "" then buf ++ "/" else buf
      let buf := if buf = "" ∧ ':' ∈ (cut '/' u.Path.data).1 then buf ++ "./" else buf
      buf ++ u.Path
  if u.Fragment ≠ "" then buf ++ "#" ++ u.Fragment else buf

def netUrl : UrlLib :=
  { Parse := netParse, ResolveReference := netResolveReference, URLString := netURLString }

/-! ## The fixtures of `fetcher_test.go` -/

def mockSimpleFetcher : UrlFetcher := { maxRetries := 1, baseUrl := "https://example.com" }

def startTag (name : String) (attrs : List Attribute) : Token :=
  { Typ := .StartTagToken, DataAtom := name, Attr := attrs }

def endTag (name : String) : Token :=
  { Typ := .EndTagToken, DataAtom := name, Attr := [] }

def doctype : Token := { Typ := .DoctypeToken, DataAtom := "", Attr := [] }

/-- The tags of the page that `fakeHttpClient.Get` serves, in page order (the
text between the tags is left out). -/
def fakePage : List Token :=
  [doctype, startTag "head" [], startTag "title" [], endTag "title", endTag "head",
   startTag "body" [⟨"class", "section type-ccg"⟩], startTag "div" [⟨"class", "hello_site"⟩],
   startTag "a" [⟨"class", "yolo"⟩, ⟨"href", "#main"⟩], endTag "a",
   startTag "header" [⟨"id", "header"⟩, ⟨"class", "tolo1"⟩],
   startTag "div" [⟨"class", "header hello3"⟩], startTag "ul" [⟨"class", "main-menu"⟩],
   startTag "li" [], startTag "a" [⟨"href", "/"⟩], endTag "a", endTag "li", startTag "li" [],
   startTag "a" [⟨"class", "current"⟩, ⟨"href", "/blog/"⟩], endTag "a", endTag "li",
   startTag "li" [],
   startTag "a" [⟨"class", "current"⟩, ⟨"aria-current", "page"⟩, ⟨"href", "/blog/"⟩],
   endTag "a", endTag "li", startTag "li" [], startTag "a" [⟨"href", "/about/"⟩], endTag "a",
   endTag "li", startTag "li" [], startTag "a" [⟨"href", "/blog"⟩], endTag "a", endTag "li",
   startTag "li" [], startTag "a" [⟨"href", "/start-outreachy"⟩], endTag "a", endTag "li",
   startTag "li" [], startTag "a" [⟨"href", "/start-outreachy"⟩], endTag "a", endTag "li",
   startTag "li" [], startTag "a" [⟨"href", "/blog"⟩], endTag "a", endTag "li",
   startTag "li" [], startTag "a" [⟨"href", "/start-outreachy"⟩], endTag "a", endTag "li",
   startTag "li" [], startTag "a" [⟨"href", "/start-outreachy"⟩], endTag "a", endTag "li",
   startTag "li" [], startTag "a" [⟨"href", "/Career"⟩], endTag "a", endTag "li",
   startTag "li" [], startTag "a" [⟨"href", "/start-outreachy"⟩], endTag "a", endTag "li",
   startTag "li" [], startTag "a" [⟨"href", "/apply"⟩], endTag "a", endTag "li", endTag "ul",
   endTag "header", startTag "div" [⟨"class", "hello_site"⟩],
   startTag "a" [⟨"class", "yolo"⟩, ⟨"href", "#main"⟩], endTag "a",
   startTag "header" [⟨"id", "header"⟩, ⟨"class", "tolo1"⟩],
   startTag "div" [⟨"class", "header hello3"⟩], startTag "div" [⟨"class", "hello_site"⟩],
   startTag "a" [⟨"class", "yolo"⟩, ⟨"href", "/actions"⟩], endTag "a",
   startTag "header" [⟨"id", "header"⟩, ⟨"class", "tolo1"⟩],
   startTag "div" [⟨"class", "header hello3"⟩], endTag "html"]

/-- The client `fakeHttpClient` of `fetcher_test.go`: every `Get` serves `fakePage`. -/
def fakeHttpClient : HttpClient Unit where
  Get := fun s _ => (.ok fakePage, s)

/-- A transport whose state counts the failures still to come: `Get` fails while
the count is positive and serves an empty page afterwards. -/
def flakyClient : HttpClient Nat where
  Get := fun s _ =>
    match s with
    | 0 => (.ok [], 0)
    | n + 1 => (.error "connection refused", n)

/-! ## `metrics` -/

theorem metrics_foldl (l : GoMap urlState) (acc : Int × Int × Int) :
    l.foldl (fun acc entry => metricsStep acc entry.2) acc =
      (acc.1 + (l.countP (fun e => e.2 = urlState.DONE) : Nat),
       acc.2.1 + (l.countP (fun e => e.2 = urlState.LOADING) : Nat),
       acc.2.2 + (l.countP (fun e => e.2 = urlState.ERROR) : Nat)) := by
  induction l generalizing acc with
  | nil => simp
  | cons e rest ih =>
    rw [List.foldl_cons, ih]
    obtain ⟨k, v⟩ := e
    cases v <;> simp [metricsStep, List.countP_cons] <;> omega

theorem metrics_eq_countP (l : GoMap urlState) :
    metrics l =
      (((l.countP (fun e => e.2 = urlState.DONE) : Nat) : Int),
       ((l.countP (fun e => e.2 = urlState.LOADING) : Nat) : Int),
       ((l.countP (fun e => e.2 = urlState.ERROR) : Nat) : Int)) := by
  unfold metrics
  rw [metrics_foldl]
  simp

theorem mapGet_cons_of_ne {V : Type} (k key : String) (v : V) (rest : GoMap V)
    (h : k ≠ key) : mapGet ((k, v) :: rest) key = mapGet rest key := by
  simp [mapGet, h]

theorem mapGet_cons_self {V : Type} (k : String) (v : V) (rest : GoMap V) :
    mapGet ((k, v) :: rest) k = some v := by
  simp [mapGet]

theorem countP_keys_eq (m : GoMap urlState) (s : urlState) (h : (mapKeys m).Nodup) :
    (mapKeys m).countP (fun k => mapGet m k = some s) = m.countP (fun e => e.2 = s) := by
  induction m with
  | nil => simp [mapKeys]
  | cons e rest ih =>
    obtain ⟨k, v⟩ := e
    simp only [mapKeys, List.map_cons, List.nodup_cons] at h
    have hrest : (mapKeys rest).countP (fun key => mapGet ((k, v) :: rest) key = some s) =
        (mapKeys rest).countP (fun key => mapGet rest key = some s) := by
      apply List.countP_congr
      intro key hkey
      have hne : k ≠ key := fun hk => h.1 (hk ▸ hkey)
      simp [mapGet_cons_of_ne k key v rest hne]
    simp only [mapKeys, List.map_cons, List.countP_cons]
    simp only [mapKeys] at hrest ih
    rw [hrest, ih h.2, mapGet_cons_self]
    simp

/-- C5: for a state map (each address once) visited in any order, `metrics`
returns the number of addresses whose state is DONE, the number whose state is
LOADING and the number whose state is ERROR, in that order; on the map of
`TestMetrics` it returns (4, 3, 2). -/
theorem metrics_counts (stateMap order : GoMap urlState)
    (hkeys : (mapKeys stateMap).Nodup) (horder : order.Perm stateMap) :
    metrics order =
      ((((mapKeys stateMap).countP (fun k => mapGet stateMap k = some urlState.DONE) : Nat) : Int),
       (((mapKeys stateMap).countP (fun k => mapGet stateMap k = some urlState.LOADING) : Nat) : Int),
       (((mapKeys stateMap).countP (fun k => mapGet stateMap k = some urlState.ERROR) : Nat) : Int))
    ∧ metrics fakeUrlStateMap = (4, 3, 2) := by
  refine ⟨?_, by decide⟩
  rw [metrics_eq_countP, countP_keys_eq _ _ hkeys, countP_keys_eq _ _ hkeys,
    countP_keys_eq _ _ hkeys, horder.countP_eq, horder.countP_eq, horder.countP_eq]

theorem metrics_counts_witness :
    (mapKeys fakeUrlStateMap).Nodup ∧ fakeUrlStateMap.reverse.Perm fakeUrlStateMap ∧
    metrics fakeUrlStateMap.reverse = (4, 3, 2) :=
  ⟨by decide, List.reverse_perm _,
    (metrics_counts fakeUrlStateMap fakeUrlStateMap.reverse (by decide)
      (List.reverse_perm _)).1.trans (by decide)⟩

/-! ## `PrintSiteMap` -/

theorem foldl_append_eq (l : List String) (acc : String) :
    l.foldl (fun r s => r ++ s) acc = acc ++ l.foldl (fun r s => r ++ s) "" := by
  induction l generalizing acc with
  | nil => simp
  | cons a rest ih =>
    simp only [List.foldl_cons]
    rw [ih (acc ++ a), ih ("" ++ a)]
    simp [String.append_assoc]

theorem join_cons (a : String) (l : List String) :
    String.join (a :: l) = a ++ String.join l := by
  simp only [String.join, List.foldl_cons]
  rw [foldl_append_eq]
  simp

theorem join_replicate_tab (n : Nat) :
    String.join (List.replicate n "\t") = String.mk (List.replicate n '\t') := by
  induction n with
  | zero => rfl
  | succ n ih =>
    rw [List.replicate_succ, join_cons, ih]
    apply String.ext
    simp [List.replicate_succ]

theorem Repeat_tab (space : Int) (h : 0 ≤ space) :
    Repeat "\t" space = .ok (String.mk (List.replicate space.toNat '\t')) := by
  unfold Repeat
  rw [if_neg (by omega), join_replicate_tab]

/-- The `range` loop of `PrintSiteMap` when every recursive call returns. -/
theorem foldlM_children (f : String → Except Abort String) (g : String → String)
    (tabs : String) (tabsM : Except Abort String) (htabs : tabsM = .ok tabs)
    (l : List String) (hf : ∀ c ∈ l, f c = .ok (g c)) (acc : String) :
    l.foldlM (fun res curUrl => do
        let t ← tabsM
        let sub ← f curUrl
        pure (res ++ ("\n" ++ t ++ "|__" ++ sub))) acc =
      .ok (acc ++ String.join (l.map (fun c => "\n" ++ tabs ++ "|__" ++ g c))) := by
  subst htabs
  induction l generalizing acc with
  | nil => simp [String.join]; rfl
  | cons c rest ih =>
    rw [List.foldlM_cons, hf c (List.mem_cons_self _ _)]
    have hrest : ∀ c ∈ rest, f c = .ok (g c) := fun d hd => hf d (List.mem_cons_of_mem _ hd)
    have := ih hrest (acc ++ ("\n" ++ tabs ++ "|__" ++ g c))
    simp only [List.map_cons, join_cons]
    rw [← String.append_assoc acc]
    exact this

theorem PrintSiteMapFuel_eq (cache : GoMap (List String)) (maxDepth : Int) (fuel : Nat) :
    ∀ (url : String) (space : Int), 0 ≤ space → (maxDepth - space).toNat ≤ fuel →
      PrintSiteMapFuel cache maxDepth fuel url space =
        .ok (renderTree cache (maxDepth - space).toNat url space.toNat) := by
  induction fuel with
  | zero =>
    intro url space _ hfuel
    have hge : space ≥ maxDepth := by omega
    have h0 : (maxDepth - space).toNat = 0 := by omega
    rw [PrintSiteMapFuel, if_pos hge, h0]
    rfl
  | succ fuel ih =>
    intro url space hspace hfuel
    by_cases hge : space ≥ maxDepth
    · have h0 : (maxDepth - space).toNat = 0 := by omega
      rw [PrintSiteMapFuel, if_pos hge, h0]
      rfl
    · obtain ⟨r, hr⟩ : ∃ r, (maxDepth - space).toNat = r + 1 := ⟨(maxDepth - space).toNat - 1, by omega⟩
      have hr1 : (maxDepth - (space + 1)).toNat = r := by omega
      have hs1 : (space + 1).toNat = space.toNat + 1 := by omega
      rw [PrintSiteMapFuel, if_neg hge, hr]
      cases hget : mapGet cache url with
      | none => simp [renderTree, hget, String.join]
      | some newUrls =>
        have hrec : ∀ c ∈ newUrls, PrintSiteMapFuel cache maxDepth fuel c (space + 1) =
            .ok (renderTree cache r c (space.toNat + 1)) := by
          intro c _
          rw [ih c (space + 1) (by omega) (by omega), hr1, hs1]
        have hloop := foldlM_children (fun c => PrintSiteMapFuel cache maxDepth fuel c (space + 1))
          (fun c => renderTree cache r c (space.toNat + 1)) _ _ (Repeat_tab space hspace)
          newUrls hrec ""
        show (do
          let res ← List.foldlM (fun res curUrl => do
              let t ← Repeat "\t" space
              let sub ← PrintSiteMapFuel cache maxDepth fuel curUrl (space + 1)
              pure (res ++ ("\n" ++ t ++ "|__" ++ sub))) "" newUrls
          pure (url ++ res)) = _
        rw [hloop]
        simp [renderTree, hget]

/-- C4 (as stated, refuted): with level -1 below maxDepth 0 and one recorded
child, `PrintSiteMap` returns no rendering: `strings.Repeat` is called with the
count -1 and panics. -/
theorem PrintSiteMap_negative_level_panics :
    PrintSiteMap [("u", ["c"])] "u" 0 (-1) =
      .error (.panic "strings: negative Repeat count") := by
  rfl

/-- C4 (amended): for every adjacency store, address `u` and integers `maxDepth`
and `level`: when `level ≥ 0`, `PrintSiteMap(u, maxDepth, level)` returns the
reference rendering, which is `u` alone when `level ≥ maxDepth` and otherwise `u`
followed, for each recorded child in stored order, by a newline, `level` tabs,
the connector and the rendering of the child one level down; and for every
integer `level ≥ maxDepth`, negative ones included, it returns exactly `u`.  On
the store of the test, depth 1 gives the seed alone and depths 2 and 3 the two
expected trees. -/
theorem PrintSiteMap_render (cache : GoMap (List String)) (u : String)
    (maxDepth level : Int) :
    (0 ≤ level → PrintSiteMap cache u maxDepth level =
      .ok (renderTree cache (maxDepth - level).toNat u level.toNat))
    ∧ (level ≥ maxDepth → PrintSiteMap cache u maxDepth level = .ok u)
    ∧ PrintSiteMap fakeCollectedUrls "https://golang.org/" 1 1 = .ok "https://golang.org/"
    ∧ PrintSiteMap fakeCollectedUrls "https://golang.org/" 2 1 =
        .ok ("https://golang.org/" ++
          "\n\t|__https://golang.org/pkg/" ++
          "\n\t|__https://golang.org/fmt/" ++
          "\n\t|__https://golang.org/os/")
    ∧ PrintSiteMap fakeCollectedUrls "https://golang.org/" 3 1 =
        .ok ("https://golang.org/" ++
          "\n\t|__https://golang.org/pkg/" ++
          "\n\t\t|__https://golang.org/fmt/" ++
          "\n\t\t|__https://golang.org/os/" ++
          "\n\t|__https://golang.org/fmt/" ++
          "\n\t\t|__https://golang.org/pkg/" ++
          "\n\t\t|__https://golang.org/os/" ++
          "\n\t|__https://golang.org/os/" ++
          "\n\t\t|__https://golang.org/pkg/" ++
          "\n\t\t|__https://golang.org/fmt/") := by
  refine ⟨fun hlevel => PrintSiteMapFuel_eq cache maxDepth _ u level hlevel (le_refl _), ?_,
    by rfl, by rfl, by rfl⟩
  intro hge
  have h0 : (maxDepth - level).toNat = 0 := by omega
  unfold PrintSiteMap
  rw [h0, PrintSiteMapFuel, if_pos hge]

theorem PrintSiteMap_render_witness :
    ((0 : Int) ≤ 1 ∧
      PrintSiteMap fakeCollectedUrls "https://golang.org/" 3 1 =
        .ok (renderTree fakeCollectedUrls 2 "https://golang.org/" 1)) ∧
    ((-1 : Int) ≥ -3 ∧ PrintSiteMap [("u", ["c"])] "u" (-3) (-1) = .ok "u") :=
  ⟨⟨by decide, (PrintSiteMap_render fakeCollectedUrls "https://golang.org/" 3 1).1 (by decide)⟩,
    ⟨by decide, (PrintSiteMap_render [("u", ["c"])] "u" (-3) (-1)).2.1 (by decide)⟩⟩

/-! ## `RefactorUrl` -/

theorem HasPrefix_hash_append (rest : String) : HasPrefix ("#" ++ rest) "#" = true := by
  simp [HasPrefix, String.data_append, List.isPrefixOf]

/-- What `RefactorUrl` has computed when it returns an address. -/
theorem RefactorUrl_ok_inv (lib : UrlLib) (fetcher : UrlFetcher) (link baseUrl out : String)
    (h : RefactorUrl lib fetcher link baseUrl = .ok (.ok out)) :
    ¬ (link.utf8ByteSize = 0 ∨ link = baseUrl ∨ link = "/" ∨ HasPrefix link "#" = true) ∧
    ∃ ref base, lib.Parse link = .ok ref ∧ lib.Parse fetcher.baseUrl = .ok base ∧
      base.Host = (lib.ResolveReference base ref).Host ∧
      out = TrimSuffix (lib.URLString (lib.ResolveReference base ref)) "/" := by
  unfold RefactorUrl at h
  split at h
  · cases h
  · rename_i hguard
    refine ⟨hguard, ?_⟩
    split at h
    · cases h
    · rename_i parsedURL hlink
      split at h
      · cases h
      · rename_i base hbase
        simp only at h
        split at h
        · cases h
        · rename_i hhost
          refine ⟨parsedURL, base, hlink, hbase, ?_, ?_⟩
          · exact not_not.mp hhost
          · injection h with h
            injection h with h
            exact h.symm

theorem RefactorUrl_of_parts (lib : UrlLib) (fetcher : UrlFetcher) (link baseUrl : String)
    (ref base : URL)
    (hguard : ¬ (link.utf8ByteSize = 0 ∨ link = baseUrl ∨ link = "/" ∨ HasPrefix link "#" = true))
    (hlink : lib.Parse link = .ok ref) (hbase : lib.Parse fetcher.baseUrl = .ok base)
    (hhost : base.Host = (lib.ResolveReference base ref).Host) :
    RefactorUrl lib fetcher link baseUrl =
      .ok (.ok (TrimSuffix (lib.URLString (lib.ResolveReference base ref)) "/")) := by
  unfold RefactorUrl
  rw [if_neg hguard, hlink, hbase]
  simp only
  rw [if_neg (not_not.mpr hhost)]

theorem TrimSuffix_slash_cases (s : String) :
    (∃ init, s.data = init ++ ['/'] ∧ (TrimSuffix s "/").data = init) ∨
    (¬ ['/'] <:+ s.data ∧ TrimSuffix s "/" = s) := by
  unfold TrimSuffix HasSuffix
  by_cases h : "/".data.isSuffixOf s.data = true
  · left
    rw [if_pos h]
    rw [List.isSuffixOf_iff_suffix] at h
    obtain ⟨init, hinit⟩ := h
    refine ⟨init, hinit.symm, ?_⟩
    have hdata : "/".data = ['/'] := rfl
    rw [hdata] at hinit
    simp [← hinit]
  · right
    rw [if_neg h]
    rw [List.isSuffixOf_iff_suffix] at h
    exact ⟨h, rfl⟩

theorem HasSuffix_TrimSuffix_slash (s : String) :
    HasSuffix (TrimSuffix s "/") "/" = true ↔ HasSuffix s "//" = true := by
  have hone : "/".data = ['/'] := rfl
  have htwo : "//".data = ['/', '/'] := rfl
  unfold HasSuffix
  rw [List.isSuffixOf_iff_suffix, List.isSuffixOf_iff_suffix, hone, htwo]
  rcases TrimSuffix_slash_cases s with ⟨init, hs, ht⟩ | ⟨hno, ht⟩
  · rw [ht, hs]
    constructor
    · rintro ⟨a, ha⟩
      exact ⟨a, by simp [← ha]⟩
    · rintro ⟨a, ha⟩
      refine ⟨a, ?_⟩
      have : (a ++ ['/']) ++ ['/'] = init ++ ['/'] := by simpa using ha
      exact List.append_cancel_right this
  · rw [ht]
    constructor
    · intro h
      exact absurd h hno
    · rintro ⟨a, ha⟩
      exact absurd ⟨a ++ ['/'], by simpa using ha⟩ hno

theorem hash_mem_TrimSuffix_slash (s : String) :
    '#' ∈ (TrimSuffix s "/").data ↔ '#' ∈ s.data := by
  rcases TrimSuffix_slash_cases s with ⟨init, hs, ht⟩ | ⟨_, ht⟩
  · rw [ht, hs]
    simp
  · rw [ht]

/-- C8: `RefactorUrl(link, pageAddress)` returns an error, and no address, whenever
the link is empty, equals the page's own address, equals "/" or starts with "#". -/
theorem RefactorUrl_rejects (lib : UrlLib) (fetcher : UrlFetcher) (link baseUrl : String)
    (h : link = "" ∨ link = baseUrl ∨ link = "/" ∨ ∃ rest, link = "#" ++ rest) :
    RefactorUrl lib fetcher link baseUrl = .ok (.error ("invalid url type : " ++ link)) := by
  unfold RefactorUrl
  rw [if_pos]
  rcases h with h | h | h | ⟨rest, h⟩
  · left
    rw [h]
    rfl
  · exact Or.inr (Or.inl h)
  · exact Or.inr (Or.inr (Or.inl h))
  · right; right; right
    rw [h]
    exact HasPrefix_hash_append rest

theorem RefactorUrl_rejects_witness :
    RefactorUrl netUrl mockSimpleFetcher "#question" "https://example.com/doc" =
      .ok (.error "invalid url type : #question") :=
  RefactorUrl_rejects netUrl mockSimpleFetcher "#question" "https://example.com/doc"
    (Or.inr (Or.inr (Or.inr ⟨"question", rfl⟩)))

/-- C9 (as stated, refuted): on the page "https://example.com/a/b" of a fetcher
configured with "https://example.com", the link "help" is accepted and returned
as "https://example.com/help", while the link resolved against the page's own
address is "https://example.com/a/help". -/
theorem RefactorUrl_not_resolved_against_page :
    RefactorUrl netUrl mockSimpleFetcher "help" "https://example.com/a/b" =
      .ok (.ok "https://example.com/help") ∧
    (netUrl.Parse "https://example.com/a/b").bind (fun page =>
      (netUrl.Parse "help").map (fun ref =>
        TrimSuffix (netUrl.URLString (netUrl.ResolveReference page ref)) "/")) =
      .ok "https://example.com/a/help" :=
  ⟨by rfl, by rfl⟩

/-- C9 (amended): every link that `RefactorUrl(L, P)` accepts is returned as `L`
resolved as a URL reference against the fetcher's configured base address
`fetcher.baseUrl` (then stripped of one trailing slash); the page address `P`
only serves to reject the link equal to it, so the result is the same on every
other page.  With the base "https://example.com" and P = "https://example.com/doc"
the link "/help" gives "https://example.com/help". -/
theorem RefactorUrl_resolves_against_base (lib : UrlLib) (fetcher : UrlFetcher)
    (link page out : String) (h : RefactorUrl lib fetcher link page = .ok (.ok out)) :
    (∃ ref base, lib.Parse link = .ok ref ∧ lib.Parse fetcher.baseUrl = .ok base ∧
      out = TrimSuffix (lib.URLString (lib.ResolveReference base ref)) "/")
    ∧ (∀ other : String, other ≠ link → RefactorUrl lib fetcher link other = .ok (.ok out))
    ∧ RefactorUrl netUrl mockSimpleFetcher "/help" "https://example.com/doc" =
        .ok (.ok "https://example.com/help") := by
  obtain ⟨hguard, ref, base, hlink, hbase, hhost, hout⟩ :=
    RefactorUrl_ok_inv lib fetcher link page out h
  refine ⟨⟨ref, base, hlink, hbase, hout⟩, ?_, by rfl⟩
  intro other hother
  rw [hout]
  apply RefactorUrl_of_parts lib fetcher link other ref base _ hlink hbase hhost
  rintro (h1 | h2 | h3 | h4)
  · exact hguard (Or.inl h1)
  · exact hother h2.symm
  · exact hguard (Or.inr (Or.inr (Or.inl h3)))
  · exact hguard (Or.inr (Or.inr (Or.inr h4)))

theorem RefactorUrl_resolves_against_base_witness :
    RefactorUrl netUrl mockSimpleFetcher "help" "https://example.com/a/b" =
      .ok (.ok "https://example.com/help") ∧
    RefactorUrl netUrl mockSimpleFetcher "help" "https://example.com/c/d/e" =
      .ok (.ok "https://example.com/help") :=
  ⟨by rfl,
    (RefactorUrl_resolves_against_base netUrl mockSimpleFetcher "help"
      "https://example.com/a/b" "https://example.com/help" (by rfl)).2.1
      "https://example.com/c/d/e" (by decide)⟩

/-- C10 (as stated, refuted): the link "/a//" is returned as
"https://example.com/a/", which ends with "/", and the link "/page#section" is
returned as "https://example.com/page#section", which carries a fragment. -/
theorem RefactorUrl_not_normal_form :
    RefactorUrl netUrl mockSimpleFetcher "/a//" "https://example.com/doc" =
      .ok (.ok "https://example.com/a/") ∧
    HasSuffix "https://example.com/a/" "/" = true ∧
    RefactorUrl netUrl mockSimpleFetcher "/page#section" "https://example.com/doc" =
      .ok (.ok "https://example.com/page#section") ∧
    '#' ∈ "https://example.com/page#section".data :=
  ⟨by rfl, by rfl, by rfl, by decide⟩

/-- C10 (amended): every address that `RefactorUrl` returns without error is the
URL string of the resolved link with one trailing "/" removed when there is one:
it ends with "/" exactly when that URL string ends with "//", it contains "#"
exactly when that URL string does, and the link it comes from does not start
with "#". -/
theorem RefactorUrl_trims_one_slash (lib : UrlLib) (fetcher : UrlFetcher)
    (link page out : String) (h : RefactorUrl lib fetcher link page = .ok (.ok out)) :
    ∃ ref base, lib.Parse link = .ok ref ∧ lib.Parse fetcher.baseUrl = .ok base ∧
      out = TrimSuffix (lib.URLString (lib.ResolveReference base ref)) "/" ∧
      (HasSuffix out "/" = true ↔
        HasSuffix (lib.URLString (lib.ResolveReference base ref)) "//" = true) ∧
      ('#' ∈ out.data ↔ '#' ∈ (lib.URLString (lib.ResolveReference base ref)).data) ∧
      HasPrefix link "#" = false := by
  obtain ⟨hguard, ref, base, hlink, hbase, _, hout⟩ :=
    RefactorUrl_ok_inv lib fetcher link page out h
  refine ⟨ref, base, hlink, hbase, hout, ?_, ?_, ?_⟩
  · rw [hout]
    exact HasSuffix_TrimSuffix_slash _
  · rw [hout]
    exact hash_mem_TrimSuffix_slash _
  · cases hp : HasPrefix link "#" with
    | false => rfl
    | true => exact absurd (Or.inr (Or.inr (Or.inr hp))) hguard

theorem RefactorUrl_trims_one_slash_witness :
    ∃ ref base, netUrl.Parse "/blog/" = .ok ref ∧
      netUrl.Parse mockSimpleFetcher.baseUrl = .ok base ∧
      "https://example.com/blog" =
        TrimSuffix (netUrl.URLString (netUrl.ResolveReference base ref)) "/" ∧
      (HasSuffix "https://example.com/blog" "/" = true ↔
        HasSuffix (netUrl.URLString (netUrl.ResolveReference base ref)) "//" = true) ∧
      ('#' ∈ "https://example.com/blog".data ↔
        '#' ∈ (netUrl.URLString (netUrl.ResolveReference base ref)).data) ∧
      HasPrefix "/blog/" "#" = false :=
  RefactorUrl_trims_one_slash netUrl mockSimpleFetcher "/blog/" "example.com"
    "https://example.com/blog" (by rfl)

/-! ## `htmlParser` -/

theorem mapGet_mapSet {V : Type} (m : GoMap V) (k key : String) (v : V) :
    mapGet (mapSet m k v) key = if k = key then some v else mapGet m key := by
  induction m with
  | nil => simp [mapSet, mapGet]
  | cons e rest ih =>
    obtain ⟨k0, v0⟩ := e
    by_cases h0 : k0 = k
    · subst h0
      by_cases h1 : k0 = key <;> simp [mapSet, mapGet, h1]
    · by_cases h1 : k0 = key
      · subst h1
        simp [mapSet, mapGet, h0, Ne.symm h0]
      · simp [mapSet, mapGet, h0, h1, ih]

theorem isUrlVisited_mapSet (vis : GoMap Bool) (url u : String) :
    isUrlVisited u (mapSet vis url true) = true ↔ u = url ∨ isUrlVisited u vis = true := by
  unfold isUrlVisited
  rw [mapGet_mapSet]
  by_cases h : url = u
  · simp [h]
  · have h2 : ¬ u = url := fun e => h e.symm
    simp [h, h2]

theorem hrefOfAttrs_eq_find (attrs : List Attribute) :
    hrefOfAttrs attrs =
      match attrs.find? (fun attr => attr.Key = "href") with
      | some attr => (attr.Val, true)
      | none => ("", false) := by
  induction attrs with
  | nil => rfl
  | cons attr rest ih =>
    by_cases h : attr.Key = "href"
    · simp [hrefOfAttrs, h]
    · simp [hrefOfAttrs, h, ih]

theorem anchorHrefs_cons_of_href (token : Token) (page : List Token) (url : String)
    (htyp : token.Typ = .StartTagToken) (h : GetUrlFromHrefAttr token = (url, true)) :
    anchorHrefs (token :: page) = url :: anchorHrefs page := by
  unfold GetUrlFromHrefAttr at h
  by_cases ha : token.DataAtom = "a"
  · rw [if_pos ha, hrefOfAttrs_eq_find] at h
    unfold anchorHrefs
    rw [List.filterMap_cons]
    cases hf : token.Attr.find? (fun attr => attr.Key = "href") with
    | none => rw [hf] at h; simp at h
    | some attr =>
      rw [hf] at h
      simp only [Prod.mk.injEq, and_true] at h
      simp [htyp, ha, hf, h]
  · rw [if_neg ha] at h
    simp at h

theorem anchorHrefs_cons_of_no_href (token : Token) (page : List Token) (url : String)
    (h : GetUrlFromHrefAttr token = (url, false)) :
    anchorHrefs (token :: page) = anchorHrefs page := by
  unfold GetUrlFromHrefAttr at h
  unfold anchorHrefs
  rw [List.filterMap_cons]
  by_cases ha : token.DataAtom = "a"
  · rw [if_pos ha, hrefOfAttrs_eq_find] at h
    cases hf : token.Attr.find? (fun attr => attr.Key = "href") with
    | none => simp [ha, hf]
    | some attr => rw [hf] at h; simp at h
  · simp [ha]

theorem anchorHrefs_cons_of_not_start (token : Token) (page : List Token)
    (htyp : token.Typ ≠ .StartTagToken) :
    anchorHrefs (token :: page) = anchorHrefs page := by
  unfold anchorHrefs
  rw [List.filterMap_cons]
  simp [htyp]

theorem RefactorUrl_no_panic (lib : UrlLib) (fetcher : UrlFetcher) (base : URL)
    (hbase : lib.Parse fetcher.baseUrl = .ok base) (link baseUrl : String) :
    ∃ r, RefactorUrl lib fetcher link baseUrl = .ok r := by
  unfold RefactorUrl
  split
  · exact ⟨_, rfl⟩
  · split
    · exact ⟨_, rfl⟩
    · rw [hbase]
      simp only
      split <;> exact ⟨_, rfl⟩

theorem keepFirst_mem (l : List String) (a : String) : a ∈ keepFirst l ↔ a ∈ l := by
  induction l with
  | nil => simp [keepFirst]
  | cons b rest ih =>
    simp only [keepFirst, List.mem_cons, List.mem_filter, ih]
    by_cases h : a = b <;> simp [h]

theorem keepFirst_nodup (l : List String) : (keepFirst l).Nodup := by
  induction l with
  | nil => simp [keepFirst]
  | cons b rest ih =>
    simp only [keepFirst, List.nodup_cons, List.mem_filter]
    exact ⟨by simp, ih.filter _⟩

theorem keepFirst_sublist (l : List String) : (keepFirst l).Sublist l := by
  induction l with
  | nil => simp [keepFirst]
  | cons b rest ih =>
    simp only [keepFirst]
    exact ((List.filter_sublist _).trans ih).cons₂ b

theorem filter_not_mem_snoc (X coll : List String) (out : String) :
    (X.filter (fun b => b ≠ out)).filter (fun u => u ∉ coll) =
      X.filter (fun u => u ∉ coll ++ [out]) := by
  rw [List.filter_filter]
  apply List.filter_congr
  intro x _
  by_cases h1 : x = out <;> by_cases h2 : x ∈ coll <;> simp [h1, h2]

theorem filter_not_mem_of_mem (X coll : List String) (out : String) (hout : out ∈ coll) :
    (X.filter (fun b => b ≠ out)).filter (fun u => u ∉ coll) =
      X.filter (fun u => u ∉ coll) := by
  rw [List.filter_filter]
  apply List.filter_congr
  intro x _
  by_cases h1 : x = out
  · subst h1; simp [hout]
  · simp [h1]

theorem htmlParserLoop_eq (lib : UrlLib) (fetcher : UrlFetcher) (baseUrl : String) (base : URL)
    (hbase : lib.Parse fetcher.baseUrl = .ok base) (page : List Token) :
    ∀ (coll : List String) (vis : GoMap Bool),
      (∀ u, isUrlVisited u vis = true ↔ u ∈ coll) →
      htmlParserLoop lib fetcher baseUrl page coll vis =
        .ok (.ok (coll ++ (keepFirst (acceptedLinks lib fetcher baseUrl
          (anchorHrefs page))).filter (fun u => u ∉ coll))) := by
  induction page with
  | nil =>
    intro coll vis _
    simp [htmlParserLoop, anchorHrefs, acceptedLinks, keepFirst]
  | cons token page ih =>
    intro coll vis hvis
    unfold htmlParserLoop
    by_cases htyp : token.Typ = .StartTagToken
    · rw [htyp]
      simp only
      cases hget : GetUrlFromHrefAttr token with
      | mk url ok =>
        cases ok with
        | false =>
          simp only
          rw [anchorHrefs_cons_of_no_href token page url hget]
          exact ih coll vis hvis
        | true =>
          simp only
          rw [anchorHrefs_cons_of_href token page url htyp hget]
          obtain ⟨r, hr⟩ := RefactorUrl_no_panic lib fetcher base hbase url baseUrl
          rw [hr]
          cases r with
          | error e =>
            simp only
            have hacc : acceptedLinks lib fetcher baseUrl (url :: anchorHrefs page) =
                acceptedLinks lib fetcher baseUrl (anchorHrefs page) := by
              simp [acceptedLinks, List.filterMap_cons, hr]
            rw [hacc]
            exact ih coll vis hvis
          | ok out =>
            simp only
            have hacc : acceptedLinks lib fetcher baseUrl (url :: anchorHrefs page) =
                out :: acceptedLinks lib fetcher baseUrl (anchorHrefs page) := by
              simp [acceptedLinks, List.filterMap_cons, hr]
            rw [hacc, keepFirst]
            by_cases hseen : isUrlVisited out vis = true
            · have hmem : out ∈ coll := (hvis out).mp hseen
              rw [if_neg (by simp [hseen])]
              rw [ih coll vis hvis, List.filter_cons, if_neg (by simp [hmem]),
                filter_not_mem_of_mem _ _ _ hmem]
            · have hmem : out ∉ coll := fun h => hseen ((hvis out).mpr h)
              rw [if_pos (by simpa using hseen)]
              have hvis2 : ∀ u, isUrlVisited u (mapSet vis out true) = true ↔
                  u ∈ coll ++ [out] := by
                intro u
                rw [isUrlVisited_mapSet, hvis u]
                simp [or_comm]
              rw [ih (coll ++ [out]) (mapSet vis out true) hvis2, List.filter_cons,
                if_pos (by simp [hmem]), filter_not_mem_snoc]
              simp
    · rw [anchorHrefs_cons_of_not_start token page htyp]
      have := ih coll vis hvis
      cases hT : token.Typ <;> simp_all

/-- Without any assumption on the base address: what the loop returns, when it
returns at all, is the list of first occurrences. -/
theorem htmlParserLoop_returned (lib : UrlLib) (fetcher : UrlFetcher) (baseUrl : String)
    (page : List Token) :
    ∀ (coll : List String) (vis : GoMap Bool) (r : Except String (List String)),
      (∀ u, isUrlVisited u vis = true ↔ u ∈ coll) →
      htmlParserLoop lib fetcher baseUrl page coll vis = .ok r →
      r = .ok (coll ++ (keepFirst (acceptedLinks lib fetcher baseUrl
          (anchorHrefs page))).filter (fun u => u ∉ coll)) := by
  induction page with
  | nil =>
    intro coll vis r _ h
    simp only [htmlParserLoop, Except.ok.injEq] at h
    simp [← h, anchorHrefs, acceptedLinks, keepFirst]
  | cons token page ih =>
    intro coll vis r hvis h
    unfold htmlParserLoop at h
    by_cases htyp : token.Typ = .StartTagToken
    · rw [htyp] at h
      simp only at h
      cases hget : GetUrlFromHrefAttr token with
      | mk url ok =>
        rw [hget] at h
        cases ok with
        | false =>
          simp only at h
          rw [anchorHrefs_cons_of_no_href token page url hget]
          exact ih coll vis r hvis h
        | true =>
          simp only at h
          rw [anchorHrefs_cons_of_href token page url htyp hget]
          cases hr : RefactorUrl lib fetcher url baseUrl with
          | error abort =>
            rw [hr] at h
            cases h
          | ok res =>
            rw [hr] at h
            cases res with
            | error e =>
              simp only at h
              have hacc : acceptedLinks lib fetcher baseUrl (url :: anchorHrefs page) =
                  acceptedLinks lib fetcher baseUrl (anchorHrefs page) := by
                simp [acceptedLinks, List.filterMap_cons, hr]
              rw [hacc]
              exact ih coll vis r hvis h
            | ok out =>
              simp only at h
              have hacc : acceptedLinks lib fetcher baseUrl (url :: anchorHrefs page) =
                  out :: acceptedLinks lib fetcher baseUrl (anchorHrefs page) := by
                simp [acceptedLinks, List.filterMap_cons, hr]
              rw [hacc, keepFirst]
              by_cases hseen : isUrlVisited out vis = true
              · have hmem : out ∈ coll := (hvis out).mp hseen
                rw [if_neg (by simp [hseen])] at h
                rw [ih coll vis r hvis h, List.filter_cons, if_neg (by simp [hmem]),
                  filter_not_mem_of_mem _ _ _ hmem]
              · have hmem : out ∉ coll := fun hc => hseen ((hvis out).mpr hc)
                rw [if_pos (by simpa using hseen)] at h
                have hvis2 : ∀ u, isUrlVisited u (mapSet vis out true) = true ↔
                    u ∈ coll ++ [out] := by
                  intro u
                  rw [isUrlVisited_mapSet, hvis u]
                  simp [or_comm]
                rw [ih (coll ++ [out]) (mapSet vis out true) r hvis2 h, List.filter_cons,
                  if_pos (by simp [hmem]), filter_not_mem_snoc]
                simp
    · rw [anchorHrefs_cons_of_not_start token page htyp]
      apply ih coll vis r hvis
      cases hT : token.Typ <;> first
        | exact absurd hT htyp
        | (rw [hT] at h; exact h)

/-- C7: on every page, the list that `htmlParser` returns is exactly the
addresses that `RefactorUrl` accepts among the `href` values of the anchor start
tags, each at its first occurrence and in that order: the list has no address
twice, holds the same addresses as the accepted ones and is a sublist of them;
and `htmlParser` does return it when the configured base address of the fetcher
parses.  On the page of `TestFetch`, where "/blog/" and "/blog" normalize to one
address, it returns the six expected addresses. -/
theorem htmlParser_first_occurrences (lib : UrlLib) (fetcher : UrlFetcher) (baseUrl : String)
    (base : URL) (body : List Token) (hbase : lib.Parse fetcher.baseUrl = .ok base) :
    htmlParser lib fetcher baseUrl body =
      .ok (.ok (keepFirst (acceptedLinks lib fetcher baseUrl (anchorHrefs body))))
    ∧ (∀ (other : UrlFetcher) (r : Except String (List String)),
        htmlParser lib other baseUrl body = .ok r →
        r = .ok (keepFirst (acceptedLinks lib other baseUrl (anchorHrefs body))))
    ∧ (keepFirst (acceptedLinks lib fetcher baseUrl (anchorHrefs body))).Nodup
    ∧ (∀ a, a ∈ keepFirst (acceptedLinks lib fetcher baseUrl (anchorHrefs body)) ↔
        a ∈ acceptedLinks lib fetcher baseUrl (anchorHrefs body))
    ∧ (keepFirst (acceptedLinks lib fetcher baseUrl (anchorHrefs body))).Sublist
        (acceptedLinks lib fetcher baseUrl (anchorHrefs body))
    ∧ htmlParser netUrl mockSimpleFetcher "example.com" fakePage =
        .ok (.ok ["https://example.com/blog", "https://example.com/about",
          "https://example.com/start-outreachy", "https://example.com/Career",
          "https://example.com/apply", "https://example.com/actions"]) := by
  refine ⟨?_, ?_, keepFirst_nodup _, keepFirst_mem _, keepFirst_sublist _, by rfl⟩
  · unfold htmlParser
    rw [htmlParserLoop_eq lib fetcher baseUrl base hbase body [] []
      (by simp [isUrlVisited, mapGet])]
    simp
  · intro other r h
    unfold htmlParser at h
    have := htmlParserLoop_returned lib other baseUrl body [] [] r
      (by simp [isUrlVisited, mapGet]) h
    simpa using this

theorem htmlParser_first_occurrences_witness :
    netUrl.Parse mockSimpleFetcher.baseUrl =
      .ok { Scheme := "https", Opaque := "", Host := "example.com", Path := "", Fragment := "" } ∧
    htmlParser netUrl mockSimpleFetcher "example.com"
        [startTag "a" [⟨"href", "/blog/"⟩], startTag "a" [⟨"href", "/x"⟩],
         startTag "a" [⟨"href", "/blog"⟩]] =
      .ok (.ok (keepFirst (acceptedLinks netUrl mockSimpleFetcher "example.com"
        ["/blog/", "/x", "/blog"]))) :=
  ⟨by rfl,
    (htmlParser_first_occurrences netUrl mockSimpleFetcher "example.com" _
      [startTag "a" [⟨"href", "/blog/"⟩], startTag "a" [⟨"href", "/x"⟩],
       startTag "a" [⟨"href", "/blog"⟩]] (by rfl)).1⟩

/-! ## `Fetch` -/

theorem RefactorUrl_abort (lib : UrlLib) (fetcher : UrlFetcher) (link baseUrl : String)
    (abort : Abort) (h : RefactorUrl lib fetcher link baseUrl = .error abort) :
    abort ≠ .outOfFuel := by
  unfold RefactorUrl at h
  split at h
  · cases h
  · split at h
    · cases h
    · split at h
      · injection h with h
        rw [← h]
        simp
      · simp only at h
        split at h <;> cases h

theorem htmlParserLoop_fuel (lib : UrlLib) (fetcher : UrlFetcher) (baseUrl : String)
    (page : List Token) :
    ∀ (coll : List String) (vis : GoMap Bool),
      htmlParserLoop lib fetcher baseUrl page coll vis ≠ .error .outOfFuel := by
  induction page with
  | nil =>
    intro coll vis
    simp [htmlParserLoop]
  | cons token page ih =>
    intro coll vis
    unfold htmlParserLoop
    split
    · split
      · split
        · rename_i abort habort
          intro h
          injection h with h
          exact RefactorUrl_abort _ _ _ _ _ habort h
        · split
          · exact ih _ _
          · exact ih _ _
        · exact ih _ _
      · exact ih _ _
    · exact ih _ _

theorem retryLoop_exit {σ : Type} (client : HttpClient σ) (url : String) (fuel : Nat)
    (retries : Int) (response : Option (List Token)) (err : Option String) (s : σ)
    (h : retries < 0) :
    Fetch.retryLoop client url fuel retries response err s =
      (.ok (retries, response, err), s) := by
  have hn : ¬ retries ≥ 0 := by omega
  cases fuel <;> simp [Fetch.retryLoop, hn]

/-- The retry loop over a logged transport, with more fuel than `retries`: it is
left normally; the calls it made are for `url`, at most `retries + 1` of them,
none after a success; and it is left either on a success, or with `retries < 0`
after `retries + 1` failures. -/
theorem retryLoop_logged {σ : Type} (client : HttpClient σ) (url : String) (fuel : Nat) :
    ∀ (retries : Int) (response : Option (List Token)) (err : Option String) (s : σ)
      (log : List (String × Except String (List Token))),
      0 ≤ retries → retries < fuel →
      ∃ (left : Int) (resp : Option (List Token)) (e : Option String) (s1 : σ)
        (calls : List (String × Except String (List Token))),
        Fetch.retryLoop client.logged url fuel retries response err (s, log) =
          (.ok (left, resp, e), (s1, log ++ calls)) ∧
        1 ≤ calls.length ∧ (calls.length : Int) ≤ retries + 1 ∧
        (∀ c ∈ calls, c.1 = url) ∧
        (∀ pre post a body, calls = pre ++ (a, .ok body) :: post → post = []) ∧
        ((∃ body, resp = some body ∧ e = none ∧ calls.getLast? = some (url, .ok body)) ∨
         (left < 0 ∧ (calls.length : Int) = retries + 1 ∧
           (∀ c ∈ calls, ∃ msg, c.2 = .error msg) ∧
           ∃ msg, e = some msg ∧ calls.getLast? = some (url, .error msg))) ∧
        ((∀ c ∈ calls, ∃ msg, c.2 = .error msg) → left < 0 ∧ ∃ msg, e = some msg) := by
  induction fuel with
  | zero =>
    intro retries _ _ _ _ h0 hlt
    simp at hlt
    omega
  | succ fuel ih =>
    intro retries response err s log h0 hlt
    rw [Fetch.retryLoop, if_pos h0]
    simp only [HttpClient.logged]
    cases hget : (client.Get s url).1 with
    | ok body =>
      refine ⟨retries, some body, none, (client.Get s url).2, [(url, .ok body)], ?_, ?_, ?_,
        ?_, ?_, ?_, ?_⟩
      · rfl
      · simp
      · simp; omega
      · simp
      · intro pre post a b hs
        cases pre with
        | nil => simp at hs; exact hs.2
        | cons p pre =>
          simp at hs
      · left
        exact ⟨body, rfl, rfl, rfl⟩
      · intro hall
        obtain ⟨msg, hmsg⟩ := hall (url, .ok body) (by simp)
        cases hmsg
    | error msg =>
      by_cases hlast : retries = 0
      · subst hlast
        refine ⟨-1, none, some msg, (client.Get s url).2, [(url, .error msg)], ?_, ?_, ?_,
          ?_, ?_, ?_, ?_⟩
        · show Fetch.retryLoop client.logged url fuel (0 - 1) none (some msg) _ = _
          rw [retryLoop_exit _ _ _ _ _ _ _ (by omega)]
          rfl
        · simp
        · simp
        · simp
        · intro pre post a b hs
          cases pre with
          | nil => simp at hs
          | cons p pre => simp at hs
        · right
          refine ⟨by omega, by simp, ?_, msg, rfl, rfl⟩
          intro c hc
          simp at hc
          exact ⟨msg, by rw [hc]⟩
        · intro _
          exact ⟨by omega, msg, rfl⟩
      · obtain ⟨left, resp, e, s1, calls, hrun, hone, hlen, hurl, hstop, hend, hfail⟩ :=
          ih (retries - 1) none (some msg) (client.Get s url).2 (log ++ [(url, .error msg)])
            (by omega) (by push_cast at hlt; omega)
        refine ⟨left, resp, e, s1, (url, .error msg) :: calls, ?_, ?_, ?_, ?_, ?_, ?_, ?_⟩
        · show Fetch.retryLoop client.logged url fuel (retries - 1) none (some msg) _ = _
          rw [hrun]
          simp
        · simp
        · simp only [List.length_cons]
          push_cast
          omega
        · intro c hc
          rcases List.mem_cons.mp hc with h | h
          · rw [h]
          · exact hurl c h
        · intro pre post a b hs
          cases pre with
          | nil => simp at hs
          | cons p pre =>
            simp only [List.cons_append, List.cons.injEq] at hs
            exact hstop pre post a b hs.2
        · have hne : calls ≠ [] := by
            intro hnil
            rw [hnil] at hone
            simp at hone
          have hlastc : ((url, Except.error msg) :: calls).getLast? = calls.getLast? := by
            cases calls with
            | nil => exact absurd rfl hne
            | cons c cs => simp [List.getLast?_cons_cons]
          rcases hend with ⟨body, h1, h2, h3⟩ | ⟨h1, h2, h3, m, h4, h5⟩
          · left
            exact ⟨body, h1, h2, by rw [hlastc, h3]⟩
          · right
            refine ⟨h1, ?_, ?_, m, h4, by rw [hlastc, h5]⟩
            · simp only [List.length_cons]
              push_cast
              omega
            · intro c hc
              rcases List.mem_cons.mp hc with h | h
              · exact ⟨msg, by rw [h]⟩
              · exact h3 c h
        · intro hall
          exact hfail (fun c hc => hall c (List.mem_cons_of_mem _ hc))

/-- C6: for a fetcher with `maxRetries ≥ 0`, over any transport and with any fuel
above `maxRetries`, `Fetch` ends without running out of fuel after at least one
and at most `maxRetries + 1` calls of `Get`, all for the address it was given; no
call follows a call that succeeded; and when every call failed there were
`maxRetries + 1` of them and `Fetch` returns the error of the last one, with no
children. -/
theorem Fetch_retries {σ : Type} (lib : UrlLib) (fetcher : UrlFetcher) (client : HttpClient σ)
    (url : String) (s : σ) (fuel : Nat)
    (hmax : 0 ≤ fetcher.maxRetries) (hfuel : fetcher.maxRetries < fuel) :
    ∃ (outcome : Except Abort (Except String (List String))) (s1 : σ)
      (calls : List (String × Except String (List Token))),
      Fetch lib fetcher fuel url client.logged (s, []) = (outcome, (s1, calls)) ∧
      outcome ≠ .error .outOfFuel ∧
      1 ≤ calls.length ∧ (calls.length : Int) ≤ fetcher.maxRetries + 1 ∧
      (∀ c ∈ calls, c.1 = url) ∧
      (∀ pre post a body, calls = pre ++ (a, .ok body) :: post → post = []) ∧
      ((∀ c ∈ calls, ∃ msg, c.2 = .error msg) →
        (calls.length : Int) = fetcher.maxRetries + 1 ∧
        ∃ msg, calls.getLast? = some (url, .error msg) ∧ outcome = .ok (.error msg)) := by
  obtain ⟨left, resp, e, s1, calls, hrun, hone, hlen, hurl, hstop, hend, hfail⟩ :=
    retryLoop_logged client url fuel fetcher.maxRetries none none s [] hmax hfuel
  simp only [List.nil_append] at hrun
  rcases hend with ⟨body, h1, h2, h3⟩ | ⟨h1, h2, h3, msg, h4, h5⟩
  · subst h1 h2
    refine ⟨htmlParser lib fetcher url body, s1, calls, ?_, ?_, hone, hlen, hurl, hstop, ?_⟩
    · unfold Fetch
      rw [hrun]
    · exact htmlParserLoop_fuel lib fetcher url body [] []
    · intro hall
      obtain ⟨_, m, hm⟩ := hfail hall
      cases hm
  · subst h4
    refine ⟨.ok (.error msg), s1, calls, ?_, ?_, hone, hlen, hurl, hstop, ?_⟩
    · unfold Fetch
      rw [hrun]
      simp only
      rw [if_pos h1]
    · simp
    · intro _
      exact ⟨h2, msg, h5, rfl⟩

theorem Fetch_retries_witness :
    ∃ (outcome : Except Abort (Except String (List String))) (s1 : Nat)
      (calls : List (String × Except String (List Token))),
      Fetch netUrl mockSimpleFetcher 2 "example.com" flakyClient.logged (5, []) =
        (outcome, (s1, calls)) ∧
      outcome ≠ .error .outOfFuel ∧
      1 ≤ calls.length ∧ (calls.length : Int) ≤ mockSimpleFetcher.maxRetries + 1 ∧
      (∀ c ∈ calls, c.1 = "example.com") ∧
      (∀ pre post a body, calls = pre ++ (a, .ok body) :: post → post = []) ∧
      ((∀ c ∈ calls, ∃ msg, c.2 = .error msg) →
        (calls.length : Int) = mockSimpleFetcher.maxRetries + 1 ∧
        ∃ msg, calls.getLast? = some ("example.com", .error msg) ∧
          outcome = .ok (.error msg)) :=
  Fetch_retries netUrl mockSimpleFetcher flakyClient "example.com" 5 2 (by decide) (by decide)

/-! ## `Crawl` -/

theorem mapKeys_mapSet {V : Type} (m : GoMap V) (k : String) (v : V) (a : String)
    (h : a ∈ mapKeys (mapSet m k v)) : a = k ∨ a ∈ mapKeys m := by
  induction m with
  | nil =>
    simp [mapSet, mapKeys] at h
    exact Or.inl h
  | cons e rest ih =>
    obtain ⟨k0, v0⟩ := e
    by_cases h0 : k0 = k
    · simp [mapSet, mapKeys, h0] at h
      rcases h with h | h
      · exact Or.inl h
      · right
        simp only [mapKeys, List.map_cons, List.mem_cons]
        right
        simpa using h
    · simp only [mapSet, if_neg h0, mapKeys, List.map_cons, List.mem_cons] at h
      rcases h with h | h
      · right
        simp [mapKeys, h]
      · rcases ih h with h1 | h1
        · exact Or.inl h1
        · right
          simp only [mapKeys, List.map_cons, List.mem_cons]
          exact Or.inr h1

theorem init_ok (fetcher : Fetcher) (seed : String) (d : Int) (hd : 0 ≤ d) :
    (Crawl.init seed d).ok fetcher seed d := by
  constructor
  · intro g hg
    simp [Crawl.init] at hg
    subst hg
    exact ⟨⟨0, ReachIn.seed, by simp⟩, hd, by simp, by simp⟩
  · intro a ha
    simp [Crawl.init, mapKeys] at ha

theorem step_ok (fetcher : Fetcher) (seed : String) (d : Int) (w w1 : World) (i : Nat)
    (hw : w.ok fetcher seed d) (hstep : Crawl.step fetcher w i = some w1) :
    w1.ok fetcher seed d := by
  obtain ⟨hgs, hkeys⟩ := hw
  unfold Crawl.step at hstep
  cases hgi : w.goroutines[i]? with
  | none => rw [hgi] at hstep; cases hstep
  | some g =>
    rw [hgi] at hstep
    simp only at hstep
    have hmem : g ∈ w.goroutines := List.getElem?_mem hgi
    have hg := hgs g hmem
    obtain ⟨⟨n, hreach, hn⟩, hdepth, hpos, hurls⟩ := hg
    have hset : ∀ g1 : Goroutine, g1.ok fetcher seed d →
        ∀ x ∈ w.goroutines.set i g1, x.ok fetcher seed d := by
      intro g1 hg1 x hx
      rcases List.mem_or_eq_of_mem_set hx with h | h
      · exact hgs x h
      · rw [h]; exact hg1
    have hret : Goroutine.ok fetcher seed d { g with pc := .returned } :=
      ⟨⟨n, hreach, hn⟩, hdepth, by simp, by simp⟩
    have hkey : ∀ a ∈ mapKeys w.stateMap ++ [g.baseUrl], g.pc ≠ .entry → g.pc ≠ .returned →
        ∃ m : Nat, ReachIn fetcher seed m a ∧ (m : Int) < d := by
      intro a ha h1 h2
      rcases List.mem_append.mp ha with h | h
      · exact hkeys a h
      · simp at h
        subst h
        exact ⟨n, hreach, by have := hpos h1 h2; omega⟩
    have hsetKeys : ∀ st : urlState, g.pc ≠ .entry → g.pc ≠ .returned →
        ∀ a ∈ mapKeys (mapSet w.stateMap g.baseUrl st),
          ∃ m : Nat, ReachIn fetcher seed m a ∧ (m : Int) < d := by
      intro st h1 h2 a ha
      apply hkey a _ h1 h2
      rcases mapKeys_mapSet _ _ _ _ ha with h | h
      · simp [h]
      · simp [h]
    cases hpc : g.pc with
    | entry =>
      rw [hpc] at hstep
      simp only at hstep
      split at hstep
      · injection hstep with hstep
        subst hstep
        exact ⟨hset _ hret, hkeys⟩
      · rename_i hne
        split at hstep
        · injection hstep with hstep
          subst hstep
          exact ⟨hset _ hret, hkeys⟩
        · injection hstep with hstep
          subst hstep
          refine ⟨hset _ ⟨⟨n, hreach, hn⟩, hdepth, ?_, by simp⟩, hkeys⟩
          intro _ _
          simp only
          omega
    | setLoading =>
      rw [hpc] at hstep
      injection hstep with hstep
      subst hstep
      have hp := hpos (by simp [hpc]) (by simp [hpc])
      exact ⟨hset _ ⟨⟨n, hreach, hn⟩, hdepth, fun _ _ => hp, by simp⟩,
        hsetKeys _ (by simp [hpc]) (by simp [hpc])⟩
    | callFetch =>
      rw [hpc] at hstep
      simp only at hstep
      have hp := hpos (by simp [hpc]) (by simp [hpc])
      split at hstep
      · injection hstep with hstep
        subst hstep
        exact ⟨hset _ ⟨⟨n, hreach, hn⟩, hdepth, fun _ _ => hp, by simp⟩, hkeys⟩
      · rename_i urls hfetch
        injection hstep with hstep
        subst hstep
        exact ⟨hset _ ⟨⟨n, hreach, hn⟩, hdepth, fun _ _ => hp,
          fun _ => ⟨urls, hfetch, fun u hu => hu⟩⟩, hkeys⟩
    | setError =>
      rw [hpc] at hstep
      injection hstep with hstep
      subst hstep
      exact ⟨hset _ hret, hsetKeys _ (by simp [hpc]) (by simp [hpc])⟩
    | setDone =>
      rw [hpc] at hstep
      injection hstep with hstep
      subst hstep
      have hp := hpos (by simp [hpc]) (by simp [hpc])
      exact ⟨hset _ ⟨⟨n, hreach, hn⟩, hdepth, fun _ _ => hp,
        fun _ => hurls (Or.inl hpc)⟩, hsetKeys _ (by simp [hpc]) (by simp [hpc])⟩
    | addUrls =>
      rw [hpc] at hstep
      injection hstep with hstep
      subst hstep
      have hp := hpos (by simp [hpc]) (by simp [hpc])
      exact ⟨hset _ ⟨⟨n, hreach, hn⟩, hdepth, fun _ _ => hp,
        fun _ => hurls (Or.inr (Or.inl hpc))⟩, hkeys⟩
    | spawn =>
      rw [hpc] at hstep
      simp only at hstep
      have hp := hpos (by simp [hpc]) (by simp [hpc])
      obtain ⟨children, hfetch, hsub⟩ := hurls (Or.inr (Or.inr hpc))
      split at hstep
      · injection hstep with hstep
        subst hstep
        exact ⟨hset _ hret, hkeys⟩
      · rename_i url rest hurlsEq
        injection hstep with hstep
        subst hstep
        refine ⟨?_, hkeys⟩
        intro x hx
        rcases List.mem_append.mp hx with h | h
        · refine hset { baseUrl := g.baseUrl, depth := g.depth, pc := .spawn, urls := rest }
            ⟨⟨n, hreach, hn⟩, hdepth, fun _ _ => hp, fun _ => ?_⟩ x h
          refine ⟨children, hfetch, fun u hu => hsub u ?_⟩
          rw [hurlsEq]
          exact List.mem_cons_of_mem _ hu
        · simp at h
          subst h
          refine ⟨⟨n + 1, ReachIn.link hreach hfetch (hsub url ?_), ?_⟩, ?_, by simp, by simp⟩
          · rw [hurlsEq]; exact List.mem_cons_self _ _
          · simp only
            push_cast
            omega
          · simp only
            omega
    | returned =>
      rw [hpc] at hstep
      cases hstep

theorem run_ok (fetcher : Fetcher) (seed : String) (d : Int) (schedule : List Nat) :
    ∀ (w w1 : World), w.ok fetcher seed d → Crawl.run fetcher schedule w = some w1 →
      w1.ok fetcher seed d := by
  induction schedule with
  | nil =>
    intro w w1 hw hrun
    simp [Crawl.run] at hrun
    rw [← hrun]
    exact hw
  | cons i schedule ih =>
    intro w w1 hw hrun
    unfold Crawl.run at hrun
    cases hstep : Crawl.step fetcher w i with
    | none => rw [hstep] at hrun; cases hrun
    | some w2 =>
      rw [hstep] at hrun
      exact ih w2 w1 (step_ok fetcher seed d w w2 i hw hstep) hrun

/-- C2: in a run started by `Crawl(seed, d)` with `d ≥ 0` on empty stores, under
every schedule of the goroutines and at every moment of the run (its end
included), every address that has a state in the state map is at the end of a
path of at most `d` links from the seed; an address whose every path from the
seed is longer than `d` is never claimed. -/
theorem Crawl_depth_bound (fetcher : Fetcher) (seed : String) (d : Int) (hd : 0 ≤ d)
    (schedule : List Nat) (w : World)
    (hrun : Crawl.run fetcher schedule (Crawl.init seed d) = some w) :
    (∀ a ∈ mapKeys w.stateMap, ∃ n : Nat, (n : Int) ≤ d ∧ ReachIn fetcher seed n a) ∧
    (∀ a, (∀ n : Nat, ReachIn fetcher seed n a → d < (n : Int)) → a ∉ mapKeys w.stateMap) := by
  have hok := run_ok fetcher seed d schedule _ w (init_ok fetcher seed d hd) hrun
  constructor
  · intro a ha
    obtain ⟨n, hreach, hn⟩ := hok.2 a ha
    exact ⟨n, by omega, hreach⟩
  · intro a hfar ha
    obtain ⟨n, hreach, hn⟩ := hok.2 a ha
    have := hfar n hreach
    omega

theorem Crawl_depth_bound_witness :
    (0 : Int) ≤ 2 ∧
    Crawl.run fakeFetcher oneByOne (Crawl.init "u0" 2) = some crawledTwoDeep ∧
    crawledTwoDeep.finished = true ∧
    ((∀ a ∈ mapKeys crawledTwoDeep.stateMap,
        ∃ n : Nat, (n : Int) ≤ 2 ∧ ReachIn fakeFetcher "u0" n a) ∧
     (∀ a, (∀ n : Nat, ReachIn fakeFetcher "u0" n a → (2 : Int) < (n : Int)) →
        a ∉ mapKeys crawledTwoDeep.stateMap)) :=
  ⟨by decide, by rfl, by rfl,
    Crawl_depth_bound fakeFetcher "u0" 2 (by decide) oneByOne crawledTwoDeep (by rfl)⟩

/-- C1 (the code at the failing input): on the link graph of the test, started
with `Crawl("u0", 3)`, the goroutine `Crawl("u2", 2)` started by the seed reads
the state of "u2" (absent) and is then overtaken by `Crawl("u1", 2)`, which
starts `Crawl("u2", 1)`; that one also finds "u2" absent, since the first has
not set it yet.  Both set LOADING and both call `Fetch`: "u2" is fetched twice. -/
theorem Crawl_fetches_twice :
    (Crawl.run fakeFetcher
        [0, 0, 0, 0, 0, 0, 0, 0, 0, 2, 1, 1, 1, 1, 1, 1, 4, 4, 4, 2, 2]
        (Crawl.init "u0" 3)).map (fun w => (w.fetched, w.fetched.count "u2")) =
      some (["u0", "u1", "u2", "u2"], 2) := by
  rfl

/-- C3 (the code at the failing input): `Crawl("u0", -1)` on empty stores passes
the test `depth == 0`, sets "u0" to LOADING, calls `Fetch` for it, and starts
`Crawl("u1", -2)` for its first child. -/
theorem Crawl_negative_depth_proceeds :
    (Crawl.run fakeFetcher [0, 0] (Crawl.init "u0" (-1))).map (fun w => w.stateMap) =
      some [("u0", urlState.LOADING)] ∧
    (Crawl.run fakeFetcher [0, 0, 0] (Crawl.init "u0" (-1))).map (fun w => w.fetched) =
      some ["u0"] ∧
    (Crawl.run fakeFetcher [0, 0, 0, 0, 0, 0] (Crawl.init "u0" (-1))).map
        (fun w => w.goroutines[1]?) =
      some (some { baseUrl := "u1", depth := -2, pc := .entry, urls := [] }) := by
  refine ⟨by rfl, by rfl, by rfl⟩

/-- At depth 0 the call returns at once: no store changes, `Fetch` is not
called and no goroutine is started. -/
theorem Crawl_depth_zero_returns (fetcher : Fetcher) (baseUrl : String) :
    Crawl.step fetcher (Crawl.init baseUrl 0) 0 =
      some { stateMap := [], cache := [], wg := 0,
             goroutines := [{ baseUrl := baseUrl, depth := 0, pc := .returned, urls := [] }],
             fetched := [] } := by
  rfl

end GoWebCrawler
